import Mathlib

/-!
Verification of the GENOMOS genotype-classification pipeline
(`src/genomos.py`).

The script classifies biological samples into genotypes from melting
temperature (Tm) measurements.  Its pipeline is: parse reference Tm
entries supplied as `-t POS:STATE:VAL,...` arguments into an ordered
mapping `posiciones`, validate inputs, coerce the `Tm_<pos>` columns of
the input table to numbers, classify every sample at every locus to the
state whose reference Tm is nearest, compose a multi-locus genotype
string, and tabulate distribution summaries.

This file shallowly embeds that pipeline.  Python floats are modelled
by `ℚ`; Python's insertion-ordered `dict` is modelled by an association
list whose update-in-place/append-new semantics mirrors CPython;
the handful of `str` methods the script uses (`lower`, `strip`,
`split`, `count`) are modelled as Lean functions over `String.toList`.
Fallible steps return `Except` with structured error values carrying
the same data as the script's error messages.
-/

namespace Genomos

/-! ### Models of the Python `str` primitives used by the script -/

/-- Model of Python `str.lower()` (character-wise case folding). -/
def pyLower (s : String) : String :=
  String.mk (s.toList.map Char.toLower)

/-- Model of Python `str.strip()`: drop whitespace from both ends. -/
def pyStrip (s : String) : String :=
  String.mk (((s.toList.dropWhile Char.isWhitespace).reverse.dropWhile
    Char.isWhitespace).reverse)

/-- Split a character list at every occurrence of `sep`
(model of Python `str.split(sep)`, which yields `[""]` on `""`). -/
def splitListOn (sep : Char) : List Char → List (List Char)
  | [] => [[]]
  | c :: rest =>
    match splitListOn sep rest with
    | [] => if c = sep then [[], []] else [[c]]
    | h :: t => if c = sep then [] :: h :: t else (c :: h) :: t

/-- Model of Python `str.split(sep)` for a one-character separator. -/
def pySplit (s : String) (sep : Char) : List String :=
  (splitListOn sep s.toList).map String.mk

/-- Split at the first occurrence of `sep` only, as Python
`str.split(sep, 1)`; `none` when `sep` does not occur (the script
unpacks the result into two variables, which raises in that case). -/
def splitOnceList (sep : Char) : List Char → Option (List Char × List Char)
  | [] => none
  | c :: rest =>
    if c = sep then some ([], rest)
    else (splitOnceList sep rest).map (fun p => (c :: p.1, p.2))

/-- Model of Python `str.split(sep, 1)` producing exactly two pieces. -/
def pySplitOnce (s : String) (sep : Char) : Option (String × String) :=
  (splitOnceList sep s.toList).map (fun p => (String.mk p.1, String.mk p.2))

/-- Model of Python `str.startswith(p)`. -/
def pyStartsWith (s p : String) : Bool :=
  s.toList.take p.toList.length = p.toList

/-- Value of a digit character. -/
def digitVal (c : Char) : Nat := c.toNat - 48

/-- Fold a digit string into a natural number; `none` on a non-digit. -/
def digitsToNat? (cs : List Char) : Option Nat :=
  cs.foldlM (fun acc c => if c.isDigit then some (acc * 10 + digitVal c) else none) 0

/-- Model of Python `float(s)` restricted to the plain decimal literals
(optional sign, digits, optional fractional part) that the script's
reference values use; surrounding whitespace is tolerated as `float`
does.  Exponent and special forms are not modelled. -/
def parseDecimal? (s : String) : Option ℚ :=
  let t := (pyStrip s).toList
  let core : List Char → Option ℚ := fun u =>
    match splitListOn '.' u with
    | [a] =>
      if a.isEmpty then none
      else (digitsToNat? a).map (fun n => (n : ℚ))
    | [a, b] =>
      if a.isEmpty && b.isEmpty then none
      else
        match digitsToNat? a, digitsToNat? b with
        | some n, some m => some ((n : ℚ) + (m : ℚ) / ((10 : ℚ) ^ b.length))
        | _, _ => none
    | _ => none
  match t with
  | '-' :: u => (core u).map (fun q => -q)
  | '+' :: u => core u
  | u => core u

/-! ### Python `dict` model (insertion-ordered association list) -/

/-- CPython `d[k] = v`: update the value in place when the key exists
(keeping its original position), otherwise append the new pair. -/
def dictInsert {β : Type} (d : List (String × β)) (k : String) (v : β) :
    List (String × β) :=
  match d with
  | [] => [(k, v)]
  | (k', v') :: rest =>
    if k' = k then (k, v) :: rest else (k', v') :: dictInsert rest k v

/-- Lookup in the `dict` model. -/
def dictGet? {β : Type} (d : List (String × β)) (k : String) : Option β :=
  (d.find? (fun p => p.1 = k)).map Prod.snd

/-- Keys of the `dict` model, in insertion order. -/
def dictKeys {β : Type} (d : List (String × β)) : List String :=
  d.map Prod.fst

/-! ### Reference parser (`posiciones` construction, genomos.py 76-102) -/

/-- Failure inside the parsing of a single `-t` entry; each constructor
carries the data interpolated into the script's error message. -/
inductive EntryError where
  /-- `tm_entry.split(":", 1)` yielded a single piece, so unpacking
  `pos, estados_str` raises. -/
  | missingColon : EntryError
  /-- A `STATE:VAL` pair did not split on `":"` into exactly two pieces. -/
  | badPair (est : String) : EntryError
  /-- `float(valor)` failed. -/
  | badFloat (valor : String) : EntryError
  /-- `Estado '...' no reconocido.`: the state token has no recognised
  leading letter. -/
  | estadoNoReconocido (estado : String) : EntryError
  deriving DecidableEq, Repr

/-- Failure of reference parsing: the script wraps any exception in
`Error en formato de -t '{tm_entry}': {e}`, naming the offending entry. -/
inductive ParseError where
  | formato (entry : String) (e : EntryError) : ParseError
  deriving DecidableEq, Repr

/-- State-token normalisation (genomos.py 90-98): case-insensitive
first-letter match on the stripped token. -/
def normalizeEstado (estado : String) : Except EntryError String :=
  if pyStartsWith (pyLower estado) "s" then .ok "Sensible"
  else if pyStartsWith (pyLower estado) "h" then .ok "Heterocigoto"
  else if pyStartsWith (pyLower estado) "r" then .ok "Resistente"
  else .error (.estadoNoReconocido estado)

/-- The inner loop over `STATE:VAL` pairs of one `-t` entry
(genomos.py 85-99), accumulating into the per-locus state `dict`. -/
def parseEstados (d : List (String × ℚ)) :
    List String → Except EntryError (List (String × ℚ))
  | [] => .ok d
  | est :: rest =>
    match pySplit est ':' with
    | [estadoRaw, valorRaw] =>
      match parseDecimal? valorRaw with
      | none => .error (.badFloat valorRaw)
      | some valor =>
        match normalizeEstado (pyStrip estadoRaw) with
        | .error e => .error e
        | .ok clave => parseEstados (dictInsert d clave valor) rest
    | _ => .error (.badPair est)

/-- Parsing of one `-t` entry `POS:STATE:VAL,...` (genomos.py 80-99). -/
def parseEntry (entry : String) :
    Except EntryError (String × List (String × ℚ)) :=
  match pySplitOnce entry ':' with
  | none => .error .missingColon
  | some (pos, estadosStr) =>
    (parseEstados [] (pySplit estadosStr ',')).map (fun d => (pos, d))

/-- The `for tm_entry in args.tm` loop (genomos.py 77-102), threading
the `posiciones` `dict`. -/
def parsePosicionesAux (acc : List (String × List (String × ℚ))) :
    List String → Except ParseError (List (String × List (String × ℚ)))
  | [] => .ok acc
  | entry :: rest =>
    match parseEntry entry with
    | .error e => .error (.formato entry e)
    | .ok pd => parsePosicionesAux (dictInsert acc pd.1 pd.2) rest

/-- `posiciones`: the full reference mapping parsed from the `-t`
arguments. -/
def parsePosiciones (tmArgs : List String) :
    Except ParseError (List (String × List (String × ℚ))) :=
  parsePosicionesAux [] tmArgs

/-! ### Classifier (genomos.py 124-143) -/

/-- Model of pandas `.abs()` on one value. -/
def pdAbs (q : ℚ) : ℚ := if q < 0 then -q else q

/-- The running-minimum fold underlying Python's
`min(diffs, key=diffs.get)`: the current best is replaced only on a
strictly smaller value, so the first minimal element wins ties. -/
def minFold (b : String × ℚ) (l : List (String × ℚ)) : String × ℚ :=
  l.foldl (fun best q => if q.2 < best.2 then q else best) b

/-- Model of `min(diffs, key=diffs.get)` over the (key, value) pairs of
an insertion-ordered `dict`; `none` on the empty dict (Python raises). -/
def minByVal : List (String × ℚ) → Option (String × ℚ)
  | [] => none
  | p :: rest => some (minFold p rest)

/-- `genotipo_por_posicion` (genomos.py 133-140) together with the
precomputed difference columns `df[f'{pos}_{estado}'] =
(df[f'Tm_{pos}'] - tm_val).abs()` (genomos.py 124-126): `none` when the
measured Tm is missing, otherwise the first configured state whose
reference value minimises `|Tm - reference|`. -/
def genotipo_por_posicion (tm : Option ℚ) (refs : List (String × ℚ)) :
    Option String :=
  match tm with
  | none => none
  | some t => (minByVal (refs.map (fun p => (p.1, pdAbs (t - p.2))))).map Prod.fst

/-! ### Genotype composer (genomos.py 149-165) -/

/-- Sentinel genotype for samples with an undetermined locus state. -/
def noDeterminado : String := "No se pudo determinar"

/-- The token-accumulating loop of `genotipo_resultante_dinamico`:
`none` models the early `return "No se pudo determinar"`.  A determined
state outside the three known names appends no token, as the script's
`if/elif` chain without `else` does. -/
def componerGenotipo : List (Option String) → Nat → Option (List String)
  | [], _ => some []
  | none :: _, _ => none
  | some estado :: rest, idx =>
    (componerGenotipo rest (idx + 1)).map (fun toks =>
      if estado = "Sensible" then "S" :: toks
      else if estado = "Heterocigoto" then ("H" ++ toString (idx + 1)) :: toks
      else if estado = "Resistente" then ("R" ++ toString (idx + 1)) :: toks
      else toks)

/-- `genotipo_resultante_dinamico` (genomos.py 149-165) on one sample's
row of per-locus states, in configuration order. -/
def genotipo_resultante_dinamico (estadosRow : List (Option String)) : String :=
  match componerGenotipo estadosRow 0 with
  | none => noDeterminado
  | some toks => String.join toks

/-! ### Counters and summaries (genomos.py 183-229) -/

/-- One `Counter` increment: `+1` in place on an existing key,
append `(x, 1)` otherwise. -/
def counterAdd (d : List (String × Nat)) (x : String) : List (String × Nat) :=
  match d with
  | [] => [(x, 1)]
  | (k, c) :: rest =>
    if k = x then (k, c + 1) :: rest else (k, c) :: counterAdd rest x

/-- Model of `collections.Counter` on a list: element → multiplicity,
keys in first-occurrence order. -/
def counter (l : List String) : List (String × Nat) :=
  l.foldl counterAdd []

/-- Single-locus summary (genomos.py 218-229): count each determined
state (`dropna`) and report `count / len(df) * 100` per state, with
`len(df)` the number of samples, undetermined included. -/
def resumenEstados (estados : List (Option String)) :
    List (String × Nat × ℚ) :=
  (counter (estados.filterMap id)).map
    (fun p => (p.1, p.2, (p.2 : ℚ) / (estados.length : ℚ) * 100))

/-- Genotype-distribution table of the multi-locus summary
(genomos.py 187-207): count each composed genotype string, sentinel
included, and report `count / len(df) * 100`. -/
def resumenGenotipos (genotipos : List String) : List (String × Nat × ℚ) :=
  (counter genotipos).map
    (fun p => (p.1, p.2, (p.2 : ℚ) / (genotipos.length : ℚ) * 100))

/-- The allele vocabulary `H1, R1, ..., Hn, Rn, S` (genomos.py 191-194). -/
def alelosPosibles (n : Nat) : List String :=
  ((List.range n).map
    (fun idx => ["H" ++ toString (idx + 1), "R" ++ toString (idx + 1)])).flatten
    ++ ["S"]

/-- Non-overlapping substring occurrence count, scanning left to right:
the core of Python `str.count` for a non-empty pattern. -/
def countOccurAux (sub : List Char) (hs : sub ≠ []) : List Char → Nat
  | [] => 0
  | c :: rest =>
    if (c :: rest).take sub.length = sub then
      1 + countOccurAux sub hs ((c :: rest).drop sub.length)
    else
      countOccurAux sub hs rest
termination_by l => l.length
decreasing_by
  · simp only [List.length_drop]
    cases sub with
    | nil => exact absurd rfl hs
    | cons x xs => simp [List.length_cons]; omega
  · simp [List.length_cons]

/-- Model of Python `g.count(a)` (genomos.py 201). -/
def pyCount (g a : String) : Nat :=
  match h : a.toList with
  | [] => g.length + 1
  | c :: cs => countOccurAux (c :: cs) (by simp) g.toList

/-- `recuento_alelos[a] += ...`: increment a counter key by `n`
(in place when present, appended otherwise; the script's keys are
always present, having been initialised to `0`). -/
def dictIncrBy (d : List (String × Nat)) (k : String) (n : Nat) :
    List (String × Nat) :=
  match d with
  | [] => [(k, n)]
  | (k', c) :: rest =>
    if k' = k then (k', c + n) :: rest else (k', c) :: dictIncrBy rest k n

/-- The allele-count accumulation loop (genomos.py 196-201): start every
allele at `0`, then for each non-sentinel genotype add its substring
occurrence count of every allele. -/
def recuentoAlelos (alelos : List String) (genotipos : List String) :
    List (String × Nat) :=
  genotipos.foldl
    (fun acc g =>
      if g ≠ noDeterminado then
        alelos.foldl (fun r a => dictIncrBy r a (pyCount g a)) acc
      else acc)
    (alelos.map (fun a => (a, 0)))

/-- Per-allele summary rows (genomos.py 210-214): for each allele in
vocabulary order, its accumulated count and
`count / total * 100 if total > 0 else 0`. -/
def resumenAlelos (alelos : List String) (genotipos : List String) :
    List (String × Nat × ℚ) :=
  let recAl := recuentoAlelos alelos genotipos
  let totalAle := (recAl.map Prod.snd).sum
  alelos.map (fun a =>
    let c := (dictGet? recAl a).getD 0
    (a, c, if totalAle > 0 then (c : ℚ) / (totalAle : ℚ) * 100 else 0))

/-! ### Input table, filesystem and the `main` pipeline
(genomos.py 50-231) -/

/-- A raw spreadsheet cell as loaded by `pd.read_excel`. -/
inductive Cell where
  | num (q : ℚ) : Cell
  | text (s : String) : Cell
  | empty : Cell
  deriving DecidableEq, Repr

/-- `pd.to_numeric(..., errors='coerce')` on one cell: numbers pass
through, numeric text is parsed, anything else becomes missing (NaN). -/
def toNumeric : Cell → Option ℚ
  | .num q => some q
  | .text s => parseDecimal? s
  | .empty => none

/-- A loaded table: named columns of cells (uniform length in any real
spreadsheet). -/
structure Table where
  cols : List (String × List Cell)
  deriving Repr

/-- Column lookup, as `df[name]` / `name in df.columns`. -/
def Table.getCol? (df : Table) (name : String) : Option (List Cell) :=
  dictGet? df.cols name

/-- The parsed command-line arguments (genomos.py 50-55). -/
structure Args where
  num_mutaciones : Int
  file : String
  tm : List String
  output : String
  txt : Option String

/-- The external world `main` touches: which paths exist, and the table
`pd.read_excel` would load from a path. -/
structure FileSystem where
  existsFile : String → Bool
  leer : String → Table

/-- Fatal errors of `main`, in the order the script can raise them;
each constructor carries the data its message interpolates. -/
inductive MainError where
  /-- `-n` does not match the number of `-t` arguments (genomos.py 62). -/
  | countMismatch (n : Int) (k : Nat) : MainError
  /-- Input file not found (genomos.py 66). -/
  | fileNotFound (file : String) : MainError
  /-- Malformed `-t` entry (genomos.py 101-102). -/
  | formatoTm (e : ParseError) : MainError
  /-- A required `Tm_<pos>` column is absent (genomos.py 112-113). -/
  | columnaFaltante (col : String) : MainError
  deriving DecidableEq, Repr

/-- The column-validation loop (genomos.py 109-115): for each position
in order, require column `Tm_<pos>` and coerce it to numbers, failing
on the first absent column.  Returns each position with its reference
dict and coerced Tm column. -/
def columnasTm (df : Table) :
    List (String × List (String × ℚ)) →
    Except MainError (List (String × List (String × ℚ) × List (Option ℚ)))
  | [] => .ok []
  | (pos, refs) :: rest =>
    match df.getCol? ("Tm_" ++ pos) with
    | none => .error (.columnaFaltante ("Tm_" ++ pos))
    | some col =>
      (columnasTm df rest).map
        (fun cs => (pos, refs, col.map toNumeric) :: cs)

/-- The computed contents of the output files: the per-sample result
table (genomos.py 167-175) and, when `--txt` is given, the summary
data (genomos.py 183-229).  Rendering these to xlsx/text is external
I/O. -/
inductive Resumen where
  | simple (pos : String) (filas : List (String × Nat × ℚ)) : Resumen
  | multiple (genotipos : List (String × Nat × ℚ))
      (alelos : List (String × Nat × ℚ)) : Resumen

structure Salida where
  tmCols : List (String × List (Option ℚ))
  estadoCols : List (String × List (Option String))
  genotipoCol : Option (List String)
  resumen : Option Resumen

/-- Row `i` of the per-locus state columns, in configuration order. -/
def filaEstados (estadoCols : List (String × List (Option String)))
    (i : Nat) : List (Option String) :=
  estadoCols.map (fun pc => (pc.2.get? i).join)

/-- Assembly of the results (genomos.py 124-229) once validation has
passed: state columns via `genotipo_por_posicion`, the composed
genotype column when more than one locus is configured, and the
optional summary. -/
def construirSalida (txt : Option String)
    (datos : List (String × List (String × ℚ) × List (Option ℚ))) : Salida :=
  let estadoCols : List (String × List (Option String)) :=
    datos.map (fun d =>
      (d.1, d.2.2.map (fun tm => genotipo_por_posicion tm d.2.1)))
  let numFilas := ((estadoCols.map (fun pc => pc.2.length)).head?).getD 0
  let genotipoCol : Option (List String) :=
    if datos.length > 1 then
      some ((List.range numFilas).map
        (fun i => genotipo_resultante_dinamico (filaEstados estadoCols i)))
    else none
  let resumen : Option Resumen :=
    match txt with
    | none => none
    | some _ =>
      if datos.length > 1 then
        let gs := genotipoCol.getD []
        some (.multiple (resumenGenotipos gs)
          (resumenAlelos (alelosPosibles datos.length) gs))
      else
        match estadoCols with
        | [] => none
        | (pos, col) :: _ => some (.simple pos (resumenEstados col))
  { tmCols := datos.map (fun d => ("Tm_" ++ d.1, d.2.2))
    estadoCols := estadoCols
    genotipoCol := genotipoCol
    resumen := resumen }

/-- The validation-and-processing pipeline of `main` (genomos.py 57-229)
as a pure function of the arguments and the filesystem: each `raise`
site becomes an `Except.error`, in the script's order — the `-n`/`-t`
count check precedes every filesystem access, the existence check
precedes the read, reference parsing precedes the column check, and
output is produced only when every check has passed. -/
def mainModel (args : Args) (fs : FileSystem) : Except MainError Salida :=
  if args.num_mutaciones ≠ (args.tm.length : Int) then
    .error (.countMismatch args.num_mutaciones args.tm.length)
  else if fs.existsFile args.file = false then
    .error (.fileNotFound args.file)
  else
    let df := fs.leer args.file
    match parsePosiciones args.tm with
    | .error e => .error (.formatoTm e)
    | .ok posiciones =>
      (columnasTm df posiciones).map (construirSalida args.txt)

/-! ### Specification-side comparator definitions

These definitions restate, in the words of the specification, the
values the code is claimed to compute; the theorems below compare them
with the source-embedded functions above. -/

/-- Position label of a `-t` entry: the part before the first colon. -/
def posDe (entry : String) : Option String :=
  (pySplitOnce entry ':').map Prod.fst

/-- The specification's token for a determined state at 0-based locus
index `i`: "S" for Sensitive, "H<i+1>" for Heterozygous, "R<i+1>" for
Resistant. -/
def tokenSegunSpec (p : Nat × String) : String :=
  if p.2 = "Sensible" then "S"
  else if p.2 = "Heterocigoto" then "H" ++ toString (p.1 + 1)
  else "R" ++ toString (p.1 + 1)

/-- The specification's per-allele count: occurrences of the allele
token `a` (as a substring) across the composed genotype strings,
excluding samples whose genotype is the undetermined sentinel. -/
def cuentaAlelo (gs : List String) (a : String) : Nat :=
  ((gs.filter (fun g => g ≠ noDeterminado)).map (fun g => pyCount g a)).sum

/-- The specification's total occurrence count over all allele tokens. -/
def totalCuenta (n : Nat) (gs : List String) : Nat :=
  ((alelosPosibles n).map (cuentaAlelo gs)).sum

/-- The three normalised state names of the data model. -/
def esEstadoConocido (s : String) : Prop :=
  s = "Sensible" ∨ s = "Heterocigoto" ∨ s = "Resistente"

/-! ## Theorems

### The running-minimum fold -/

theorem pdAbs_eq_abs (q : ℚ) : pdAbs q = |q| := by
  by_cases h : q < 0
  · rw [pdAbs, if_pos h, abs_of_neg h]
  · rw [pdAbs, if_neg h, abs_of_nonneg (not_lt.mp h)]

theorem minFold_spec (l : List (String × ℚ)) (b : String × ℚ) :
    (minFold b l = b ∨ minFold b l ∈ l) ∧ (minFold b l).2 ≤ b.2 ∧
      ∀ q ∈ l, (minFold b l).2 ≤ q.2 := by
  induction l generalizing b with
  | nil => exact ⟨Or.inl rfl, le_refl _, by simp⟩
  | cons q rest ih =>
    simp only [minFold, List.foldl_cons] at *
    by_cases hq : q.2 < b.2
    · simp only [if_pos hq]
      obtain ⟨h1, h2, h3⟩ := ih q
      refine ⟨?_, le_trans h2 (le_of_lt hq), ?_⟩
      · rcases h1 with h | h
        · exact Or.inr (by simp [h])
        · exact Or.inr (List.mem_cons_of_mem _ h)
      · intro r hr
        rcases List.mem_cons.mp hr with h | h
        · exact h ▸ h2
        · exact h3 r h
    · simp only [if_neg hq]
      obtain ⟨h1, h2, h3⟩ := ih b
      refine ⟨?_, h2, ?_⟩
      · rcases h1 with h | h
        · exact Or.inl h
        · exact Or.inr (List.mem_cons_of_mem _ h)
      · intro r hr
        rcases List.mem_cons.mp hr with h | h
        · exact h ▸ le_trans h2 (not_lt.mp hq)
        · exact h3 r h

theorem minFold_const (b : String × ℚ) (l : List (String × ℚ))
    (h : ∀ q ∈ l, b.2 ≤ q.2) : minFold b l = b := by
  induction l with
  | nil => rfl
  | cons q rest ih =>
    simp only [minFold, List.foldl_cons] at *
    have hq : ¬ q.2 < b.2 := not_lt.mpr (h q (by simp))
    rw [if_neg hq]
    exact ih (fun r hr => h r (List.mem_cons_of_mem _ hr))

theorem minFold_first (d₁ : List (String × ℚ)) (b p : String × ℚ)
    (d₂ : List (String × ℚ)) (hb : p.2 < b.2) (h₁ : ∀ q ∈ d₁, p.2 < q.2)
    (h₂ : ∀ q ∈ d₂, p.2 ≤ q.2) : minFold b (d₁ ++ p :: d₂) = p := by
  induction d₁ generalizing b with
  | nil =>
    simp only [List.nil_append, minFold, List.foldl_cons, if_pos hb]
    exact minFold_const p d₂ h₂
  | cons q d₁' ih =>
    simp only [List.cons_append, minFold, List.foldl_cons] at *
    by_cases hq : q.2 < b.2
    · rw [if_pos hq]
      exact ih q (h₁ q (by simp)) (fun r hr => h₁ r (List.mem_cons_of_mem _ hr))
    · rw [if_neg hq]
      exact ih b hb (fun r hr => h₁ r (List.mem_cons_of_mem _ hr))

/-! ### Claim C1 -/

/-- C1: for every sample whose measured Tm at a configured locus is not
missing, `genotipo_por_posicion` assigns one of the locus's configured
states, and that state achieves the minimum absolute difference between
the measured Tm and the configured reference values; no configured
state has a strictly smaller absolute difference. -/
theorem estado_asignado_minimiza_distancia (t : ℚ)
    (refs : List (String × ℚ)) (h : refs ≠ []) :
    ∃ s, genotipo_por_posicion (some t) refs = some s ∧
      ∃ v, (s, v) ∈ refs ∧ ∀ q ∈ refs, |t - v| ≤ |t - q.2| := by
  obtain ⟨s₀, v₀, rest, rfl⟩ : ∃ s₀ v₀ rest, refs = (s₀, v₀) :: rest := by
    cases refs with
    | nil => exact absurd rfl h
    | cons p rest => exact ⟨p.1, p.2, rest, rfl⟩
  obtain ⟨h1, h2, h3⟩ :=
    minFold_spec (rest.map (fun p => (p.1, |t - p.2|))) (s₀, |t - v₀|)
  have hEq : genotipo_por_posicion (some t) ((s₀, v₀) :: rest) =
      some (minFold (s₀, |t - v₀|)
        (rest.map (fun p => (p.1, |t - p.2|)))).1 := by
    simp only [genotipo_por_posicion, pdAbs_eq_abs, List.map_cons, minByVal,
      Option.map_some']
  refine ⟨(minFold (s₀, |t - v₀|) (rest.map (fun p => (p.1, |t - p.2|)))).1,
    hEq, ?_⟩
  rcases h1 with hm | hm
  · refine ⟨v₀, by simp [hm], ?_⟩
    intro q hq
    have hval : (minFold (s₀, |t - v₀|)
        (rest.map (fun p => (p.1, |t - p.2|)))).2 = |t - v₀| := by rw [hm]
    rcases List.mem_cons.mp hq with h | h
    · rw [h]
    · have := h3 _ (List.mem_map_of_mem (fun p => (p.1, |t - p.2|)) h)
      rw [hval] at this
      exact this
  · obtain ⟨q₀, hq₀, hmq⟩ := List.mem_map.mp hm
    have h1' : (minFold (s₀, |t - v₀|)
        (rest.map (fun p => (p.1, |t - p.2|)))).1 = q₀.1 := by rw [← hmq]
    have hval : (minFold (s₀, |t - v₀|)
        (rest.map (fun p => (p.1, |t - p.2|)))).2 = |t - q₀.2| := by rw [← hmq]
    refine ⟨q₀.2, ?_, ?_⟩
    · rw [h1', Prod.mk.eta]
      exact List.mem_cons_of_mem _ hq₀
    · intro q hq
      rcases List.mem_cons.mp hq with h | h
      · rw [hval] at h2
        simpa [h] using h2
      · have := h3 _ (List.mem_map_of_mem (fun p => (p.1, |t - p.2|)) h)
        rw [hval] at this
        exact this

/-- Witness for C1: the specification's round-trip example
`1016:S:73.2,H:72.66,R:72.21` with measured Tm `72.70`. -/
theorem estado_asignado_minimiza_distancia_witness :
    ([("Sensible", (73.2 : ℚ)), ("Heterocigoto", 72.66), ("Resistente", 72.21)] ≠
      ([] : List (String × ℚ))) ∧
    ∃ s, genotipo_por_posicion (some (72.70 : ℚ))
        [("Sensible", 73.2), ("Heterocigoto", 72.66), ("Resistente", 72.21)] =
        some s ∧
      ∃ v, (s, v) ∈ [("Sensible", (73.2 : ℚ)), ("Heterocigoto", 72.66),
          ("Resistente", 72.21)] ∧
        ∀ q ∈ [("Sensible", (73.2 : ℚ)), ("Heterocigoto", 72.66),
          ("Resistente", 72.21)], |72.70 - v| ≤ |(72.70 : ℚ) - q.2| :=
  ⟨by simp, estado_asignado_minimiza_distancia 72.70 _ (by simp)⟩

/-! ### Claim C4 -/

/-- C4: with a non-missing Tm, when two or more configured states are
equidistant from the measured Tm, the state selected is the first one,
in the reference mapping's insertion order, achieving the minimal
absolute difference: if every state before `(s, v)` is strictly farther
and no state is strictly nearer, then `s` is selected. -/
theorem desempate_por_orden_de_insercion (t : ℚ)
    (l₁ l₂ : List (String × ℚ)) (s : String) (v : ℚ)
    (hmin : ∀ q ∈ l₁ ++ (s, v) :: l₂, |t - v| ≤ |t - q.2|)
    (hprev : ∀ q ∈ l₁, |t - v| < |t - q.2|) :
    genotipo_por_posicion (some t) (l₁ ++ (s, v) :: l₂) = some s := by
  cases l₁ with
  | nil =>
    simp only [List.nil_append, genotipo_por_posicion, pdAbs_eq_abs,
      List.map_cons, minByVal]
    have : minFold (s, |t - v|) (l₂.map (fun p => (p.1, |t - p.2|))) =
        (s, |t - v|) := by
      refine minFold_const _ _ ?_
      intro q hq
      obtain ⟨q₀, hq₀, rfl⟩ := List.mem_map.mp hq
      exact hmin q₀ (List.mem_cons_of_mem _ hq₀)
    rw [this]
    rfl
  | cons b l₁' =>
    simp only [List.cons_append, genotipo_por_posicion, pdAbs_eq_abs,
      List.map_cons, List.map_append, minByVal]
    have : minFold (b.1, |t - b.2|)
        (l₁'.map (fun p => (p.1, |t - p.2|)) ++
          (s, |t - v|) :: l₂.map (fun p => (p.1, |t - p.2|))) = (s, |t - v|) := by
      refine minFold_first _ _ _ _ ?_ ?_ ?_
      · exact hprev b (by simp)
      · intro q hq
        obtain ⟨q₀, hq₀, rfl⟩ := List.mem_map.mp hq
        exact hprev q₀ (List.mem_cons_of_mem _ hq₀)
      · intro q hq
        obtain ⟨q₀, hq₀, rfl⟩ := List.mem_map.mp hq
        exact hmin q₀ (by
          refine List.mem_cons_of_mem _ ?_
          exact List.mem_append_right _ (List.mem_cons_of_mem _ hq₀))
    rw [this]
    rfl

/-- Witness for C4: at Tm 5 the states `Sensible` (reference 4) and
`Heterocigoto` (reference 6) are exactly equidistant; the first in
insertion order is selected. -/
theorem desempate_por_orden_de_insercion_witness :
    (∀ q ∈ ([] ++ ("Sensible", (4 : ℚ)) :: [("Heterocigoto", (6 : ℚ))]),
      |(5 : ℚ) - 4| ≤ |(5 : ℚ) - q.2|) ∧
    (∀ q ∈ ([] : List (String × ℚ)), |(5 : ℚ) - 4| < |(5 : ℚ) - q.2|) ∧
    genotipo_por_posicion (some (5 : ℚ))
      ([] ++ ("Sensible", (4 : ℚ)) :: [("Heterocigoto", (6 : ℚ))]) =
      some "Sensible" := by
  have hmin : ∀ q ∈ ([] ++ ("Sensible", (4 : ℚ)) :: [("Heterocigoto", (6 : ℚ))]),
      |(5 : ℚ) - 4| ≤ |(5 : ℚ) - q.2| := by
    intro q hq
    simp only [List.nil_append, List.mem_cons, List.not_mem_nil, or_false] at hq
    rcases hq with rfl | rfl <;> norm_num
  have hprev : ∀ q ∈ ([] : List (String × ℚ)), |(5 : ℚ) - 4| < |(5 : ℚ) - q.2| := by
    intro q hq
    exact absurd hq (List.not_mem_nil q)
  exact ⟨hmin, hprev,
    desempate_por_orden_de_insercion 5 [] [("Heterocigoto", 6)] "Sensible" 4
      hmin hprev⟩

/-! ### Claim C2 -/

theorem componerGenotipo_of_none (estadosRow : List (Option String))
    (h : none ∈ estadosRow) (idx : Nat) :
    componerGenotipo estadosRow idx = none := by
  induction estadosRow generalizing idx with
  | nil => exact absurd h (List.not_mem_nil none)
  | cons x rest ih =>
    cases x with
    | none => rfl
    | some s =>
      have hr : none ∈ rest := by
        rcases List.mem_cons.mp h with h' | h'
        · exact absurd h'.symm (Option.some_ne_none s)
        · exact h'
      simp only [componerGenotipo, ih hr (idx + 1), Option.map_none']

theorem componerGenotipo_of_conocidos (estados : List String)
    (h : ∀ s ∈ estados, esEstadoConocido s) (idx : Nat) :
    componerGenotipo (estados.map some) idx =
      some ((List.enumFrom idx estados).map tokenSegunSpec) := by
  induction estados generalizing idx with
  | nil => rfl
  | cons s rest ih =>
    have hs := h s (by simp)
    have ihr := ih (fun x hx => h x (List.mem_cons_of_mem _ hx)) (idx + 1)
    simp only [List.map_cons, componerGenotipo, ihr, Option.map_some',
      List.enumFrom_cons, Option.some.injEq]
    rcases hs with h' | h' | h' <;> simp [h', tokenSegunSpec]

/-- C2: a missing measured Tm makes the per-locus state undetermined;
a sample with any undetermined locus state gets exactly the sentinel
genotype `"No se pudo determinar"`; a fully determined sample (all its
states among the three configured names, as the parser guarantees) gets
the separator-free concatenation, in configuration order, of `"S"` for
`Sensible` and `"H<i>"`/`"R<i>"` (1-based index `i`) for
`Heterocigoto`/`Resistente`.  (`mainModel` applies the composer exactly
when more than one locus is configured.) -/
theorem tm_faltante_indeterminado_y_composicion :
    (∀ refs : List (String × ℚ), genotipo_por_posicion none refs = none) ∧
    (∀ estadosRow : List (Option String), none ∈ estadosRow →
      genotipo_resultante_dinamico estadosRow = "No se pudo determinar") ∧
    (∀ estados : List String, (∀ s ∈ estados, esEstadoConocido s) →
      genotipo_resultante_dinamico (estados.map some) =
        String.join ((estados.enum).map tokenSegunSpec)) := by
  refine ⟨fun refs => rfl, ?_, ?_⟩
  · intro estadosRow h
    simp only [genotipo_resultante_dinamico, componerGenotipo_of_none estadosRow h 0]
    rfl
  · intro estados h
    simp only [genotipo_resultante_dinamico, List.enum,
      componerGenotipo_of_conocidos estados h 0]

/-- Witness for C2: a sample with a missing second locus is the
sentinel; the specification's two-locus example composes to `"SR2"`. -/
theorem tm_faltante_indeterminado_y_composicion_witness :
    genotipo_resultante_dinamico [some "Sensible", none] =
      "No se pudo determinar" ∧
    genotipo_resultante_dinamico (["Sensible", "Resistente"].map some) =
      String.join ((["Sensible", "Resistente"].enum).map tokenSegunSpec) ∧
    String.join ((["Sensible", "Resistente"].enum).map tokenSegunSpec) = "SR2" :=
  ⟨tm_faltante_indeterminado_y_composicion.2.1 [some "Sensible", none] (by simp),
    tm_faltante_indeterminado_y_composicion.2.2 ["Sensible", "Resistente"]
      (by
        intro s hs
        simp only [List.mem_cons, List.not_mem_nil, or_false] at hs
        rcases hs with rfl | rfl
        · exact Or.inl rfl
        · exact Or.inr (Or.inr rfl)),
    rfl⟩

/-! ### Lemmas about the `dict` model -/

theorem mem_dictInsert {β : Type} (d : List (String × β)) (k : String) (v : β)
    (p : String × β) (h : p ∈ dictInsert d k v) : p = (k, v) ∨ p ∈ d := by
  induction d with
  | nil =>
    simp only [dictInsert, List.mem_singleton] at h
    exact Or.inl h
  | cons q rest ih =>
    simp only [dictInsert] at h
    by_cases hq : q.1 = k
    · rw [if_pos hq] at h
      rcases List.mem_cons.mp h with h' | h'
      · exact Or.inl h'
      · exact Or.inr (List.mem_cons_of_mem _ h')
    · rw [if_neg hq] at h
      rcases List.mem_cons.mp h with h' | h'
      · exact Or.inr (h' ▸ List.mem_cons_self _ _)
      · rcases ih h' with h'' | h''
        · exact Or.inl h''
        · exact Or.inr (List.mem_cons_of_mem _ h'')

theorem dictKeys_dictInsert_of_not_mem {β : Type} (d : List (String × β))
    (k : String) (v : β) (h : k ∉ dictKeys d) :
    dictKeys (dictInsert d k v) = dictKeys d ++ [k] := by
  induction d with
  | nil => rfl
  | cons q rest ih =>
    have hne : q.1 ≠ k := by
      intro he
      exact h (by simp [dictKeys, he])
    have hk : k ∉ dictKeys rest := by
      intro hk
      exact h (by simp [dictKeys] at hk ⊢; exact Or.inr hk)
    simp only [dictInsert, if_neg hne, dictKeys, List.map_cons] at *
    rw [ih hk, List.cons_append]

theorem length_dictInsert_of_not_mem {β : Type} (d : List (String × β))
    (k : String) (v : β) (h : k ∉ dictKeys d) :
    (dictInsert d k v).length = d.length + 1 := by
  induction d with
  | nil => rfl
  | cons q rest ih =>
    have hne : q.1 ≠ k := by
      intro he
      exact h (by simp [dictKeys, he])
    have hk : k ∉ dictKeys rest := by
      intro hk
      exact h (by simp [dictKeys] at hk ⊢; exact Or.inr hk)
    simp only [dictInsert, if_neg hne, List.length_cons, ih hk]

/-! ### Lemmas about the reference parser -/

theorem parseEntry_pos (entry pos : String) (d : List (String × ℚ))
    (h : parseEntry entry = .ok (pos, d)) : posDe entry = some pos := by
  cases hsplit : pySplitOnce entry ':' with
  | none =>
    simp only [parseEntry, hsplit] at h
    exact absurd h (by simp)
  | some pr =>
    obtain ⟨p₁, p₂⟩ := pr
    simp only [parseEntry, hsplit] at h
    simp only [posDe, hsplit, Option.map_some']
    cases hpe : parseEstados [] (pySplit p₂ ',') with
    | error e => rw [hpe] at h; exact absurd h (by simp [Except.map])
    | ok d' =>
      rw [hpe] at h
      simp only [Except.map, Except.ok.injEq, Prod.mk.injEq] at h
      rw [h.1]

theorem parsePosicionesAux_length (args : List String)
    (acc m : List (String × List (String × ℚ)))
    (hp : parsePosicionesAux acc args = .ok m)
    (hnew : ∀ e ∈ args, ∀ p, posDe e = some p → p ∉ dictKeys acc)
    (hd : args.Pairwise (fun e₁ e₂ => posDe e₁ ≠ posDe e₂)) :
    m.length = acc.length + args.length := by
  induction args generalizing acc with
  | nil =>
    simp only [parsePosicionesAux, Except.ok.injEq] at hp
    simp [← hp]
  | cons entry rest ih =>
    simp only [parsePosicionesAux] at hp
    cases hpe : parseEntry entry with
    | error e => rw [hpe] at hp; exact absurd hp (by simp)
    | ok pd =>
      rw [hpe] at hp
      obtain ⟨hd1, hd2⟩ := List.pairwise_cons.mp hd
      have hpos : posDe entry = some pd.1 := parseEntry_pos entry pd.1 pd.2 (by
        rw [hpe])
      have hnotin : pd.1 ∉ dictKeys acc :=
        hnew entry (List.mem_cons_self _ _) pd.1 hpos
      have hkeys : dictKeys (dictInsert acc pd.1 pd.2) = dictKeys acc ++ [pd.1] :=
        dictKeys_dictInsert_of_not_mem acc pd.1 pd.2 hnotin
      have hlen : (dictInsert acc pd.1 pd.2).length = acc.length + 1 :=
        length_dictInsert_of_not_mem acc pd.1 pd.2 hnotin
      have hnew' : ∀ e ∈ rest, ∀ p, posDe e = some p →
          p ∉ dictKeys (dictInsert acc pd.1 pd.2) := by
        intro e he p hpp
        rw [hkeys]
        intro hmem
        rcases List.mem_append.mp hmem with h' | h'
        · exact hnew e (List.mem_cons_of_mem _ he) p hpp h'
        · have : p = pd.1 := List.mem_singleton.mp h'
          exact hd1 e he (by rw [hpos, hpp, this])
      have := ih (dictInsert acc pd.1 pd.2) hp hnew' hd2
      simp only [List.length_cons]
      omega

/-! ### Claim C3 (corrected) -/

/-- Counterexample to C3 as stated: two individually valid `-t`
arguments that share the position label `1016` parse successfully into
a mapping with a single locus, so the number of loci differs from the
number of `-t` arguments. -/
theorem conteo_loci_contraejemplo :
    (parsePosiciones ["1016:S:73.2", "1016:S:74.0"]).map List.length = .ok 1 ∧
    ["1016:S:73.2", "1016:S:74.0"].length = 2 := ⟨rfl, rfl⟩

/-- C3 (amended): for every valid sequence of reference-triple
arguments whose position labels are pairwise distinct, the number of
loci in the parsed mapping equals the number of `-t` arguments; and
parsing is deterministic — the same argument sequence always yields the
same mapping (definitional in this pure embedding). -/
theorem conteo_loci_con_posiciones_distintas (args : List String)
    (m : List (String × List (String × ℚ)))
    (hp : parsePosiciones args = .ok m)
    (hd : args.Pairwise (fun e₁ e₂ => posDe e₁ ≠ posDe e₂)) :
    m.length = args.length ∧
    ∀ args', args' = args → parsePosiciones args' = parsePosiciones args := by
  constructor
  · have := parsePosicionesAux_length args [] m hp
      (fun e he p hpp => by simp [dictKeys]) hd
    simpa using this
  · intro args' h
    rw [h]

/-- Witness for the amended C3: the specification's two-locus example
has distinct positions `1016` and `1534` and parses to two loci. -/
theorem conteo_loci_con_posiciones_distintas_witness :
    ∃ m, parsePosiciones
        ["1016:S:73.2,H:72.66,R:72.21", "1534:S:81.71,H:81.81,R:82.36"] =
        .ok m ∧
      m.length = 2 := by
  cases hm : parsePosiciones
      ["1016:S:73.2,H:72.66,R:72.21", "1534:S:81.71,H:81.81,R:82.36"] with
  | error e =>
    have hl : (parsePosiciones
        ["1016:S:73.2,H:72.66,R:72.21", "1534:S:81.71,H:81.81,R:82.36"]).map
        List.length = .ok 2 := rfl
    rw [hm] at hl
    exact absurd hl (by simp [Except.map])
  | ok m =>
    exact ⟨m, rfl,
      (conteo_loci_con_posiciones_distintas _ m hm (by decide)).1⟩

/-! ### Claim C5 -/

theorem toList_mk (l : List Char) : (String.mk l).toList = l := rfl

theorem normalizeEstado_eq (estado : String) (c : Char) (cs : List Char)
    (h : estado.toList = c :: cs) :
    normalizeEstado estado =
      if c.toLower = 's' then .ok "Sensible"
      else if c.toLower = 'h' then .ok "Heterocigoto"
      else if c.toLower = 'r' then .ok "Resistente"
      else .error (.estadoNoReconocido estado) := by
  have h2 : ∀ (p : Char) (w : String), w.toList = [p] →
      pyStartsWith (pyLower estado) w = decide (c.toLower = p) := by
    intro p w hw
    have hwd : w.data = [p] := hw
    have hed : estado.data = c :: cs := h
    simp [pyStartsWith, pyLower, String.toList, String.length, hwd, hed]
  rw [normalizeEstado]
  rw [h2 's' "s" rfl, h2 'h' "h" rfl, h2 'r' "r" rfl]
  by_cases hs : c.toLower = 's'
  · simp [hs]
  · by_cases hh : c.toLower = 'h'
    · simp [hs, hh]
    · by_cases hr : c.toLower = 'r'
      · simp [hs, hh, hr]
      · simp [hs, hh, hr]

theorem parseEstados_append (l₁ l₂ : List String) (d : List (String × ℚ)) :
    parseEstados d (l₁ ++ l₂) =
      match parseEstados d l₁ with
      | .error e => .error e
      | .ok d' => parseEstados d' l₂ := by
  induction l₁ generalizing d with
  | nil => rfl
  | cons est rest ih =>
    cases hsplit : pySplit est ':' with
    | nil => simp only [List.cons_append, parseEstados, hsplit]
    | cons a t =>
      cases t with
      | nil => simp only [List.cons_append, parseEstados, hsplit]
      | cons b t2 =>
        cases t2 with
        | cons x t3 => simp only [List.cons_append, parseEstados, hsplit]
        | nil =>
          cases hdec : parseDecimal? b with
          | none => simp only [List.cons_append, parseEstados, hsplit, hdec]
          | some v =>
            cases hnorm : normalizeEstado (pyStrip a) with
            | error e =>
              simp only [List.cons_append, parseEstados, hsplit, hdec, hnorm]
            | ok clave =>
              simp only [List.cons_append, parseEstados, hsplit, hdec, hnorm]
              exact ih (dictInsert d clave v)

theorem parsePosicionesAux_primer_error (pre : List String) (entry : String)
    (post : List String) (err : EntryError)
    (acc : List (String × List (String × ℚ)))
    (hpre : ∀ e ∈ pre, ∃ r, parseEntry e = .ok r)
    (he : parseEntry entry = .error err) :
    parsePosicionesAux acc (pre ++ entry :: post) =
      .error (.formato entry err) := by
  induction pre generalizing acc with
  | nil => simp only [List.nil_append, parsePosicionesAux, he]
  | cons e pre' ih =>
    obtain ⟨r, hr⟩ := hpre e (List.mem_cons_self _ _)
    simp only [List.cons_append, parsePosicionesAux, hr]
    exact ih (dictInsert acc r.1 r.2)
      (fun e' he' => hpre e' (List.mem_cons_of_mem _ he'))

/-- C5: during reference parsing every state token is normalised by
case-insensitive first-letter match (`s` → `Sensible`, `h` →
`Heterocigoto`, `r` → `Resistente`); a token with any other leading
character fails the state normalisation with an error carrying the raw
token, this failure aborts the pair loop, makes the whole `-t` entry
fail with that error, and — for the first failing entry — makes the run
fail with a format error naming the offending entry and the
unrecognised raw state text. -/
theorem normalizacion_por_letra_inicial_y_error :
    (∀ (estado : String) (c : Char) (cs : List Char), estado.toList = c :: cs →
      ((c.toLower = 's' → normalizeEstado estado = .ok "Sensible") ∧
       (c.toLower = 'h' → normalizeEstado estado = .ok "Heterocigoto") ∧
       (c.toLower = 'r' → normalizeEstado estado = .ok "Resistente") ∧
       (c.toLower ≠ 's' → c.toLower ≠ 'h' → c.toLower ≠ 'r' →
         normalizeEstado estado = .error (.estadoNoReconocido estado)))) ∧
    (∀ (d : List (String × ℚ)) (est estadoRaw valorRaw : String) (v : ℚ)
       (rest : List String),
      pySplit est ':' = [estadoRaw, valorRaw] →
      parseDecimal? valorRaw = some v →
      normalizeEstado (pyStrip estadoRaw) =
        .error (.estadoNoReconocido (pyStrip estadoRaw)) →
      parseEstados d (est :: rest) =
        .error (.estadoNoReconocido (pyStrip estadoRaw))) ∧
    (∀ (entry pos estadosStr est : String) (done rest : List String)
       (err : EntryError) (d₁ : List (String × ℚ)),
      pySplitOnce entry ':' = some (pos, estadosStr) →
      pySplit estadosStr ',' = done ++ est :: rest →
      parseEstados [] done = .ok d₁ →
      parseEstados d₁ (est :: rest) = .error err →
      parseEntry entry = .error err) ∧
    (∀ (pre : List String) (entry : String) (post : List String)
       (err : EntryError),
      (∀ e ∈ pre, ∃ r, parseEntry e = .ok r) →
      parseEntry entry = .error err →
      parsePosiciones (pre ++ entry :: post) = .error (.formato entry err)) := by
  refine ⟨?_, ?_, ?_, ?_⟩
  · intro estado c cs h
    rw [normalizeEstado_eq estado c cs h]
    refine ⟨fun hc => by simp [hc], fun hc => ?_, fun hc => ?_, fun h1 h2 h3 => ?_⟩
    · by_cases hs : c.toLower = 's'
      · rw [hc] at hs; exact absurd hs (by decide)
      · simp [hs, hc]
    · by_cases hs : c.toLower = 's'
      · rw [hc] at hs; exact absurd hs (by decide)
      · by_cases hh : c.toLower = 'h'
        · rw [hc] at hh; exact absurd hh (by decide)
        · simp [hs, hh, hc]
    · simp [h1, h2, h3]
  · intro d est estadoRaw valorRaw v rest hsplit hdec hnorm
    simp only [parseEstados, hsplit, hdec, hnorm]
  · intro entry pos estadosStr est done rest err d₁ hsplit hcoma hdone hfail
    simp only [parseEntry, hsplit, hcoma, parseEstados_append, hdone, hfail,
      Except.map]
  · intro pre entry post err hpre he
    exact parsePosicionesAux_primer_error pre entry post err [] hpre he

/-- Witness for C5: the token `Qbad` normalises to an error, and a run
whose second `-t` entry is `1534:Qbad:81.7` fails with a format error
naming that entry and `Qbad`. -/
theorem normalizacion_por_letra_inicial_y_error_witness :
    normalizeEstado "Qbad" = .error (.estadoNoReconocido "Qbad") ∧
    parsePosiciones ["1016:S:73.2", "1534:Qbad:81.7"] =
      .error (.formato "1534:Qbad:81.7" (.estadoNoReconocido "Qbad")) :=
  ⟨(normalizacion_por_letra_inicial_y_error.1 "Qbad" 'Q' ['b', 'a', 'd']
      rfl).2.2.2 (by decide) (by decide) (by decide),
    normalizacion_por_letra_inicial_y_error.2.2.2 ["1016:S:73.2"]
      "1534:Qbad:81.7" [] (.estadoNoReconocido "Qbad")
      (by
        intro e he
        have : e = "1016:S:73.2" := by simpa using he
        rw [this]
        exact ⟨("1016", [("Sensible", (73 : ℚ) + (2 : ℚ) / (10 : ℚ) ^ 1)]), rfl⟩)
      rfl⟩

/-! ### Claim C9 -/

theorem normalizeEstado_ok (e s : String) (h : normalizeEstado e = .ok s) :
    esEstadoConocido s := by
  unfold normalizeEstado at h
  split at h
  · exact Or.inl (by injection h with h'; exact h'.symm)
  · split at h
    · exact Or.inr (Or.inl (by injection h with h'; exact h'.symm))
    · split at h
      · exact Or.inr (Or.inr (by injection h with h'; exact h'.symm))
      · exact absurd h (by simp)

theorem parseEstados_conocidos (l : List String) (d d' : List (String × ℚ))
    (h : parseEstados d l = .ok d')
    (hd : ∀ p ∈ d, esEstadoConocido p.1) :
    ∀ p ∈ d', esEstadoConocido p.1 := by
  induction l generalizing d with
  | nil =>
    simp only [parseEstados, Except.ok.injEq] at h
    exact h ▸ hd
  | cons est rest ih =>
    cases hsplit : pySplit est ':' with
    | nil => simp [parseEstados, hsplit] at h
    | cons a t =>
      cases t with
      | nil => simp [parseEstados, hsplit] at h
      | cons b t2 =>
        cases t2 with
        | cons x t3 => simp [parseEstados, hsplit] at h
        | nil =>
          cases hdec : parseDecimal? b with
          | none => simp [parseEstados, hsplit, hdec] at h
          | some v =>
            cases hnorm : normalizeEstado (pyStrip a) with
            | error e => simp [parseEstados, hsplit, hdec, hnorm] at h
            | ok clave =>
              simp only [parseEstados, hsplit, hdec, hnorm] at h
              refine ih (dictInsert d clave v) h ?_
              intro p hp
              rcases mem_dictInsert d clave v p hp with h' | h'
              · rw [h']
                exact normalizeEstado_ok (pyStrip a) clave hnorm
              · exact hd p h'

theorem parseEntry_conocidos (entry pos : String) (d : List (String × ℚ))
    (h : parseEntry entry = .ok (pos, d)) :
    ∀ p ∈ d, esEstadoConocido p.1 := by
  cases hsplit : pySplitOnce entry ':' with
  | none =>
    simp only [parseEntry, hsplit] at h
    exact absurd h (by simp)
  | some pr =>
    obtain ⟨p₁, p₂⟩ := pr
    simp only [parseEntry, hsplit] at h
    cases hpe : parseEstados [] (pySplit p₂ ',') with
    | error e => rw [hpe] at h; exact absurd h (by simp [Except.map])
    | ok d' =>
      rw [hpe] at h
      simp only [Except.map, Except.ok.injEq, Prod.mk.injEq] at h
      have := parseEstados_conocidos (pySplit p₂ ',') [] d' hpe (by simp)
      exact h.2 ▸ this

theorem parsePosicionesAux_conocidos (args : List String)
    (acc m : List (String × List (String × ℚ)))
    (h : parsePosicionesAux acc args = .ok m)
    (hacc : ∀ pr ∈ acc, ∀ p ∈ pr.2, esEstadoConocido p.1) :
    ∀ pr ∈ m, ∀ p ∈ pr.2, esEstadoConocido p.1 := by
  induction args generalizing acc with
  | nil =>
    simp only [parsePosicionesAux, Except.ok.injEq] at h
    exact h ▸ hacc
  | cons entry rest ih =>
    cases hpe : parseEntry entry with
    | error e => simp [parsePosicionesAux, hpe] at h
    | ok pd =>
      simp only [parsePosicionesAux, hpe] at h
      refine ih (dictInsert acc pd.1 pd.2) h ?_
      intro pr hpr
      rcases mem_dictInsert acc pd.1 pd.2 pr hpr with h' | h'
      · rw [h']
        exact parseEntry_conocidos entry pd.1 pd.2 (by rw [hpe])
      · exact hacc pr h'

/-- C9: whenever the classifier determines a state at a locus of the
parsed reference mapping, that state is one of the keys of the locus's
configured state dictionary — in particular it lies in
`{"Sensible", "Heterocigoto", "Resistente"}`, and at a locus supplied
with fewer than three states only the supplied states can be
assigned. -/
theorem estado_determinado_es_clave_configurada (args : List String)
    (m : List (String × List (String × ℚ)))
    (hp : parsePosiciones args = .ok m)
    (pos : String) (refs : List (String × ℚ)) (hm : (pos, refs) ∈ m)
    (tm : Option ℚ) (s : String)
    (hs : genotipo_por_posicion tm refs = some s) :
    s ∈ dictKeys refs ∧ esEstadoConocido s := by
  have hmem : s ∈ dictKeys refs := by
    cases tm with
    | none => simp [genotipo_por_posicion] at hs
    | some t =>
      cases refs with
      | nil => simp [genotipo_por_posicion, minByVal] at hs
      | cons p rest =>
        simp only [genotipo_por_posicion, List.map_cons, minByVal,
          Option.map_some', Option.some.injEq] at hs
        obtain ⟨h1, _, _⟩ := minFold_spec
          (rest.map (fun q => (q.1, pdAbs (t - q.2)))) (p.1, pdAbs (t - p.2))
        rcases h1 with h' | h'
        · rw [← hs, h']
          simp [dictKeys]
        · obtain ⟨q₀, hq₀, hmq⟩ := List.mem_map.mp h'
          rw [← hs, ← hmq]
          simp only [dictKeys, List.map_cons, List.mem_cons]
          exact Or.inr (List.mem_map_of_mem Prod.fst hq₀)
  refine ⟨hmem, ?_⟩
  obtain ⟨v, hv⟩ : ∃ v, (s, v) ∈ refs := by
    obtain ⟨q, hq, hq1⟩ := List.mem_map.mp hmem
    exact ⟨q.2, by rw [← hq1, Prod.mk.eta]; exact hq⟩
  have hinv := parsePosicionesAux_conocidos args [] m hp (by simp)
  exact hinv (pos, refs) hm (s, v) hv

/-- Witness for C9: a locus configured with only two states
(`1016:S:73.2,H:72.66`); the classified state is a configured key. -/
theorem estado_determinado_es_clave_configurada_witness :
    parsePosiciones ["1016:S:73.2,H:72.66"] =
      .ok [("1016", [("Sensible", (73 : ℚ) + (2 : ℚ) / (10 : ℚ) ^ 1),
        ("Heterocigoto", (72 : ℚ) + (66 : ℚ) / (10 : ℚ) ^ 2)])] ∧
    genotipo_por_posicion (some (73 : ℚ))
      [("Sensible", (73 : ℚ) + (2 : ℚ) / (10 : ℚ) ^ 1),
        ("Heterocigoto", (72 : ℚ) + (66 : ℚ) / (10 : ℚ) ^ 2)] =
      some "Sensible" ∧
    ("Sensible" ∈ dictKeys [("Sensible", (73 : ℚ) + (2 : ℚ) / (10 : ℚ) ^ 1),
        ("Heterocigoto", (72 : ℚ) + (66 : ℚ) / (10 : ℚ) ^ 2)] ∧
      esEstadoConocido "Sensible") := by
  have hp : parsePosiciones ["1016:S:73.2,H:72.66"] =
      .ok [("1016", [("Sensible", (73 : ℚ) + (2 : ℚ) / (10 : ℚ) ^ 1),
        ("Heterocigoto", (72 : ℚ) + (66 : ℚ) / (10 : ℚ) ^ 2)])] := rfl
  have hs : genotipo_por_posicion (some (73 : ℚ))
      [("Sensible", (73 : ℚ) + (2 : ℚ) / (10 : ℚ) ^ 1),
        ("Heterocigoto", (72 : ℚ) + (66 : ℚ) / (10 : ℚ) ^ 2)] =
      some "Sensible" := by
    norm_num [genotipo_por_posicion, minByVal, minFold, pdAbs]
  exact ⟨hp, hs,
    estado_determinado_es_clave_configurada ["1016:S:73.2,H:72.66"] _ hp
      "1016" _ (List.mem_singleton.mpr rfl) (some 73) "Sensible" hs⟩

/-! ### Claim C6 -/

theorem columnasTm_error_de_faltante (df : Table)
    (ps : List (String × List (String × ℚ))) (pos : String)
    (refs : List (String × ℚ)) (hm : (pos, refs) ∈ ps)
    (hcol : df.getCol? ("Tm_" ++ pos) = none) :
    ∃ col, columnasTm df ps = .error (.columnaFaltante col) ∧
      df.getCol? col = none := by
  induction ps with
  | nil => exact absurd hm (List.not_mem_nil _)
  | cons q rest ih =>
    obtain ⟨qpos, qrefs⟩ := q
    cases hq : df.getCol? ("Tm_" ++ qpos) with
    | none =>
      exact ⟨"Tm_" ++ qpos, by simp [columnasTm, hq], hq⟩
    | some col =>
      rcases List.mem_cons.mp hm with h' | h'
      · rw [Prod.mk.injEq] at h'
        rw [h'.1] at hcol
        simp [hcol] at hq
      · obtain ⟨c, hc1, hc2⟩ := ih h'
        exact ⟨c, by simp [columnasTm, hq, hc1, Except.map], hc2⟩

/-- C6: every validation or parse failure makes the run abort with a
descriptive error (in this embedding an `Except.error`, which carries
no `Salida`; in the script every `raise` site precedes the writing of
the result table and summary).  The `-n`/`-t` count check fails before
any file I/O: its outcome is identical for every filesystem.  The four
failure kinds are, in the script's order: count mismatch, missing input
file, malformed `-t` entry, missing `Tm_<pos>` column. -/
theorem errores_abortan_antes_de_salida (args : Args) (fs : FileSystem) :
    (args.num_mutaciones ≠ (args.tm.length : Int) →
      ∀ fs' : FileSystem, mainModel args fs' =
        .error (.countMismatch args.num_mutaciones args.tm.length)) ∧
    (args.num_mutaciones = (args.tm.length : Int) →
      fs.existsFile args.file = false →
      mainModel args fs = .error (.fileNotFound args.file)) ∧
    (∀ pe, args.num_mutaciones = (args.tm.length : Int) →
      fs.existsFile args.file = true →
      parsePosiciones args.tm = .error pe →
      mainModel args fs = .error (.formatoTm pe)) ∧
    (∀ posiciones pos refs,
      args.num_mutaciones = (args.tm.length : Int) →
      fs.existsFile args.file = true →
      parsePosiciones args.tm = .ok posiciones →
      (pos, refs) ∈ posiciones →
      (fs.leer args.file).getCol? ("Tm_" ++ pos) = none →
      ∃ col, mainModel args fs = .error (.columnaFaltante col) ∧
        (fs.leer args.file).getCol? col = none) := by
  refine ⟨?_, ?_, ?_, ?_⟩
  · intro h fs'
    simp [mainModel, h]
  · intro h1 h2
    simp [mainModel, h1, h2]
  · intro pe h1 h2 hpe
    simp [mainModel, h1, h2, hpe]
  · intro posiciones pos refs h1 h2 hparse hm hcol
    obtain ⟨col, hc1, hc2⟩ :=
      columnasTm_error_de_faltante (fs.leer args.file) posiciones pos refs hm hcol
    refine ⟨col, ?_, hc2⟩
    simp [mainModel, h1, h2, hparse, hc1, Except.map]

/-- Witness for C6: `-n 2` with a single `-t` argument fails with the
count-mismatch error on an arbitrary filesystem (here: one where the
input file does not even exist). -/
theorem errores_abortan_antes_de_salida_witness :
    ((2 : Int) ≠ ((["1016:S:73.2"] : List String).length : Int)) ∧
    mainModel
      { num_mutaciones := 2, file := "in.xlsx", tm := ["1016:S:73.2"],
        output := "resultados.xlsx", txt := none }
      { existsFile := fun _ => false, leer := fun _ => { cols := [] } } =
      .error (.countMismatch 2 1) :=
  ⟨by decide,
    (errores_abortan_antes_de_salida
      { num_mutaciones := 2, file := "in.xlsx", tm := ["1016:S:73.2"],
        output := "resultados.xlsx", txt := none }
      { existsFile := fun _ => false, leer := fun _ => { cols := [] } }).1
      (by decide)
      { existsFile := fun _ => false, leer := fun _ => { cols := [] } }⟩

/-! ### Lemmas about `dictGet?` and the counter -/

theorem dictGet?_cons {β : Type} (a : String) (v : β)
    (rest : List (String × β)) (k : String) :
    dictGet? ((a, v) :: rest) k = if a = k then some v else dictGet? rest k := by
  by_cases h : a = k <;> simp [dictGet?, List.find?_cons, h]

theorem dictGet?_eq_none {β : Type} (d : List (String × β)) (k : String) :
    dictGet? d k = none ↔ k ∉ dictKeys d := by
  induction d with
  | nil => simp [dictGet?, dictKeys]
  | cons p rest ih =>
    obtain ⟨a, v⟩ := p
    rw [dictGet?_cons]
    by_cases h : a = k
    · subst h
      simp [dictKeys]
    · rw [if_neg h, ih]
      simp only [dictKeys, List.map_cons, List.mem_cons, not_or]
      constructor
      · intro hn
        exact ⟨fun he => h he.symm, hn⟩
      · intro hn
        exact hn.2

theorem mem_of_dictGet? {β : Type} (d : List (String × β)) (k : String) (v : β)
    (h : dictGet? d k = some v) : (k, v) ∈ d := by
  induction d with
  | nil => simp [dictGet?] at h
  | cons p rest ih =>
    obtain ⟨a, w⟩ := p
    by_cases ha : a = k
    · rw [dictGet?_cons, if_pos ha] at h
      subst ha
      exact (Option.some.injEq w v ▸ h : w = v) ▸ List.mem_cons_self _ _
    · rw [dictGet?_cons, if_neg ha] at h
      exact List.mem_cons_of_mem _ (ih h)

theorem dictGet?_eq_of_mem_nodup {β : Type} (d : List (String × β))
    (y : String × β) (hnd : (dictKeys d).Nodup) (hy : y ∈ d) :
    dictGet? d y.1 = some y.2 := by
  induction d with
  | nil => exact absurd hy (List.not_mem_nil y)
  | cons p rest ih =>
    obtain ⟨a, w⟩ := p
    have hnd' : (a :: dictKeys rest).Nodup := by simpa [dictKeys] using hnd
    rcases List.mem_cons.mp hy with h' | h'
    · rw [h', dictGet?_cons, if_pos rfl]
    · have ha : a ≠ y.1 := by
        intro he
        have hkeys : y.1 ∈ dictKeys rest := List.mem_map_of_mem Prod.fst h'
        exact (List.nodup_cons.mp hnd').1 (he ▸ hkeys)
      rw [dictGet?_cons, if_neg ha]
      exact ih (List.nodup_cons.mp hnd').2 h'

theorem counterAdd_get (d : List (String × Nat)) (x k : String) :
    dictGet? (counterAdd d x) k =
      if k = x then some ((dictGet? d k).getD 0 + 1) else dictGet? d k := by
  induction d with
  | nil =>
    by_cases h : k = x
    · subst h; simp [counterAdd, dictGet?_cons, dictGet?]
    · simp [counterAdd, dictGet?_cons, h, Ne.symm h, dictGet?]
  | cons p rest ih =>
    obtain ⟨a, c⟩ := p
    by_cases hax : a = x
    · subst hax
      by_cases hk : k = a
      · subst hk; simp [counterAdd, dictGet?_cons]
      · simp [counterAdd, dictGet?_cons, hk, Ne.symm hk]
    · by_cases hk : k = a
      · subst hk
        have hkx : k ≠ x := fun he => hax he
        simp [counterAdd, hax, dictGet?_cons, hkx]
      · simp [counterAdd, hax, dictGet?_cons, hk, Ne.symm hk, ih]

theorem counterAdd_sum (d : List (String × Nat)) (x : String) :
    ((counterAdd d x).map Prod.snd).sum = (d.map Prod.snd).sum + 1 := by
  induction d with
  | nil => rfl
  | cons p rest ih =>
    obtain ⟨a, c⟩ := p
    by_cases h : a = x
    · simp only [counterAdd, if_pos h, List.map_cons, List.sum_cons]
      omega
    · simp only [counterAdd, if_neg h, List.map_cons, List.sum_cons, ih]
      omega

theorem dictKeys_counterAdd (d : List (String × Nat)) (x : String) :
    dictKeys (counterAdd d x) =
      if x ∈ dictKeys d then dictKeys d else dictKeys d ++ [x] := by
  induction d with
  | nil => simp [counterAdd, dictKeys]
  | cons p rest ih =>
    obtain ⟨a, c⟩ := p
    by_cases h : a = x
    · simp [counterAdd, h, dictKeys]
    · simp only [counterAdd, if_neg h, dictKeys, List.map_cons, List.mem_cons,
        Ne.symm h, false_or] at ih ⊢
      by_cases hx : x ∈ List.map Prod.fst rest
      · simp [hx] at ih ⊢
        exact ih
      · simp [hx] at ih ⊢
        exact ih

theorem nodup_dictKeys_counterAdd (d : List (String × Nat)) (x : String)
    (h : (dictKeys d).Nodup) : (dictKeys (counterAdd d x)).Nodup := by
  rw [dictKeys_counterAdd]
  by_cases hx : x ∈ dictKeys d
  · rwa [if_pos hx]
  · rw [if_neg hx]
    simp [List.nodup_append, h, hx]

theorem foldl_counterAdd_get (l : List String) (d : List (String × Nat))
    (k : String) :
    dictGet? (l.foldl counterAdd d) k =
      if k ∈ l then some ((dictGet? d k).getD 0 + l.count k)
      else dictGet? d k := by
  induction l generalizing d with
  | nil => simp
  | cons x rest ih =>
    simp only [List.foldl_cons]
    rw [ih (counterAdd d x), counterAdd_get]
    by_cases hk : k = x
    · subst hk
      rw [if_pos rfl, if_pos (List.mem_cons_self k rest)]
      by_cases hr : k ∈ rest
      · rw [if_pos hr]
        simp only [Option.getD_some, List.count_cons_self, Option.some.injEq]
        omega
      · rw [if_neg hr]
        simp only [Option.getD_some, Option.some.injEq, List.count_cons_self,
          List.count_eq_zero_of_not_mem hr]
    · rw [if_neg hk]
      by_cases hm : k ∈ rest
      · rw [if_pos hm, if_pos (List.mem_cons_of_mem x hm),
          List.count_cons_of_ne hk]
      · rw [if_neg hm, if_neg (fun hc => by
          rcases List.mem_cons.mp hc with h' | h'
          · exact hk h'
          · exact hm h')]

theorem foldl_counterAdd_nodup (l : List String) (d : List (String × Nat))
    (h : (dictKeys d).Nodup) : (dictKeys (l.foldl counterAdd d)).Nodup := by
  induction l generalizing d with
  | nil => exact h
  | cons x rest ih =>
    exact ih (counterAdd d x) (nodup_dictKeys_counterAdd d x h)

theorem counter_get (l : List String) (k : String) :
    dictGet? (counter l) k = if k ∈ l then some (l.count k) else none := by
  rw [counter, foldl_counterAdd_get]
  by_cases h : k ∈ l <;> simp [h, dictGet?]

theorem counter_sum (l : List String) :
    ((counter l).map Prod.snd).sum = l.length := by
  suffices h : ∀ (l : List String) (d : List (String × Nat)),
      ((l.foldl counterAdd d).map Prod.snd).sum =
        (d.map Prod.snd).sum + l.length by
    simpa using h l []
  intro l
  induction l with
  | nil => simp
  | cons x rest ih =>
    intro d
    simp only [List.foldl_cons, ih (counterAdd d x), counterAdd_sum,
      List.length_cons]
    omega

theorem counter_mem_spec (l : List String) (x : String × Nat)
    (h : x ∈ counter l) : x.1 ∈ l ∧ x.2 = l.count x.1 := by
  have hnd : (dictKeys (counter l)).Nodup := foldl_counterAdd_nodup l [] (by simp [dictKeys])
  have hget := dictGet?_eq_of_mem_nodup (counter l) x hnd h
  rw [counter_get] at hget
  by_cases hm : x.1 ∈ l
  · rw [if_pos hm] at hget
    exact ⟨hm, (Option.some.injEq _ _ ▸ hget).symm⟩
  · rw [if_neg hm] at hget
    exact absurd hget (by simp)

/-! ### Claim C7 -/

theorem filterMap_id_length_lt (estados : List (Option String))
    (h : none ∈ estados) :
    (estados.filterMap id).length < estados.length := by
  induction estados with
  | nil => exact absurd h (List.not_mem_nil none)
  | cons x rest ih =>
    cases x with
    | none =>
      have hle : (rest.filterMap id).length ≤ rest.length :=
        List.length_filterMap_le id rest
      simp only [List.filterMap_cons, id, List.length_cons]
      omega
    | some s =>
      have hr : none ∈ rest := by simpa using h
      have := ih hr
      simp only [List.filterMap_cons, id, List.length_cons]
      omega

/-- C7: each row of the single-locus summary reports an observed
determined state with its count among the determined samples
(undetermined ones are not tallied) and a percentage equal to
count / total-sample-count * 100; when at least one sample is
undetermined, the reported percentages sum to strictly less than
100. -/
theorem resumen_simple_porcentajes (estados : List (Option String))
    (h : none ∈ estados) :
    (∀ x ∈ resumenEstados estados,
      x.1 ∈ estados.filterMap id ∧
      x.2.1 = (estados.filterMap id).count x.1 ∧
      x.2.2 = (x.2.1 : ℚ) / (estados.length : ℚ) * 100) ∧
    (∀ s ∈ estados.filterMap id,
      ∃ c pct, (s, c, pct) ∈ resumenEstados estados) ∧
    ((resumenEstados estados).map (fun x => x.2.2)).sum < 100 := by
  refine ⟨?_, ?_, ?_⟩
  · intro x hx
    obtain ⟨p, hp, hpx⟩ := List.mem_map.mp hx
    obtain ⟨hp1, hp2⟩ := counter_mem_spec _ p hp
    rw [← hpx]
    exact ⟨hp1, hp2, rfl⟩
  · intro s hs
    have hget : dictGet? (counter (estados.filterMap id)) s =
        some ((estados.filterMap id).count s) := by
      rw [counter_get, if_pos hs]
    have hmem := mem_of_dictGet? _ s _ hget
    exact ⟨(estados.filterMap id).count s,
      ((estados.filterMap id).count s : ℚ) / (estados.length : ℚ) * 100,
      List.mem_map_of_mem _ hmem⟩
  · have key : ∀ (L : List (String × Nat)) (T : ℚ),
        ((L.map (fun p => (p.1, p.2, (p.2 : ℚ) / T * 100))).map
          (fun x => x.2.2)).sum = ((L.map Prod.snd).sum : ℚ) * (100 / T) := by
      intro L T
      induction L with
      | nil => simp
      | cons p rest ihL =>
        simp only [List.map_cons, List.sum_cons, ihL]
        push_cast
        ring
    have hres : (resumenEstados estados).map (fun x => x.2.2) =
        ((counter (estados.filterMap id)).map
          (fun p => (p.1, p.2,
            (p.2 : ℚ) / (estados.length : ℚ) * 100))).map
          (fun x => x.2.2) := rfl
    rw [hres, key, counter_sum (estados.filterMap id)]
    have hT : (0 : ℚ) < (estados.length : ℚ) := by
      have : 0 < estados.length := List.length_pos.mpr (by
        intro he
        rw [he] at h
        exact List.not_mem_nil none h)
      exact_mod_cast this
    have hlt : ((estados.filterMap id).length : ℚ) < (estados.length : ℚ) := by
      exact_mod_cast filterMap_id_length_lt estados h
    calc ((estados.filterMap id).length : ℚ) * (100 / (estados.length : ℚ))
        < (estados.length : ℚ) * (100 / (estados.length : ℚ)) := by
          exact mul_lt_mul_of_pos_right hlt (by positivity)
      _ = 100 := by
          rw [mul_comm, div_mul_cancel₀]
          exact ne_of_gt hT

/-- Witness for C7: four samples, one undetermined; the percentages
are 50% and 25%, summing to 75 < 100. -/
theorem resumen_simple_porcentajes_witness :
    (none ∈ [some "Sensible", none, some "Sensible", some "Resistente"]) ∧
    ((resumenEstados
      [some "Sensible", none, some "Sensible", some "Resistente"]).map
      (fun x => x.2.2)).sum < 100 :=
  ⟨by simp,
    (resumen_simple_porcentajes
      [some "Sensible", none, some "Sensible", some "Resistente"]
      (by simp)).2.2⟩

/-! ### Claim C10 -/

theorem foldl_recuento_sentinel (alelos gs : List String)
    (d : List (String × Nat)) (h : ∀ g ∈ gs, g = noDeterminado) :
    gs.foldl
      (fun acc g =>
        if g ≠ noDeterminado then
          alelos.foldl (fun r a => dictIncrBy r a (pyCount g a)) acc
        else acc) d = d := by
  induction gs generalizing d with
  | nil => rfl
  | cons g rest ih =>
    have hg : g = noDeterminado := h g (List.mem_cons_self _ _)
    simp only [List.foldl_cons, hg]
    rw [if_neg (by simp)]
    exact ih d (fun g' hg' => h g' (List.mem_cons_of_mem _ hg'))

theorem sum_snd_init (alelos : List String) :
    ((alelos.map (fun a => (a, (0 : Nat)))).map Prod.snd).sum = 0 := by
  induction alelos with
  | nil => rfl
  | cons a rest ih => simpa using ih

/-- C10: the per-allele percentage computation is guarded against
division by zero: when the total allele occurrence count is zero — for
example when every sample's genotype is the undetermined sentinel —
every allele's percentage is reported as 0 instead of the run
failing. -/
theorem porcentaje_alelos_con_total_cero (alelos gs : List String) :
    ((∀ g ∈ gs, g = noDeterminado) →
      ((recuentoAlelos alelos gs).map Prod.snd).sum = 0) ∧
    (((recuentoAlelos alelos gs).map Prod.snd).sum = 0 →
      ∀ x ∈ resumenAlelos alelos gs, x.2.2 = 0) := by
  constructor
  · intro h
    rw [recuentoAlelos, foldl_recuento_sentinel alelos gs _ h]
    exact sum_snd_init alelos
  · intro h x hx
    simp only [resumenAlelos] at hx
    rw [h] at hx
    obtain ⟨a, ha, hax⟩ := List.mem_map.mp hx
    rw [← hax]
    simp

/-- Witness for C10: two loci, a single sample whose genotype is the
sentinel; the total is 0 and all five allele percentages are 0. -/
theorem porcentaje_alelos_con_total_cero_witness :
    ((recuentoAlelos (alelosPosibles 2) ["No se pudo determinar"]).map
      Prod.snd).sum = 0 ∧
    ∀ x ∈ resumenAlelos (alelosPosibles 2) ["No se pudo determinar"],
      x.2.2 = 0 := by
  have h1 := (porcentaje_alelos_con_total_cero (alelosPosibles 2)
    ["No se pudo determinar"]).1
    (by intro g hg; simpa [noDeterminado] using hg)
  exact ⟨h1,
    (porcentaje_alelos_con_total_cero (alelosPosibles 2)
      ["No se pudo determinar"]).2 h1⟩

/-! ### Claim C8 -/

theorem dictGet?_dictIncrBy (d : List (String × Nat)) (k : String) (n : Nat)
    (a : String) :
    dictGet? (dictIncrBy d k n) a =
      if a = k then some ((dictGet? d k).getD 0 + n) else dictGet? d a := by
  induction d with
  | nil =>
    by_cases h : a = k
    · subst h; simp [dictIncrBy, dictGet?_cons, dictGet?]
    · simp [dictIncrBy, dictGet?_cons, h, Ne.symm h, dictGet?]
  | cons p rest ih =>
    obtain ⟨b, c⟩ := p
    by_cases hbk : b = k
    · subst hbk
      by_cases hab : a = b
      · subst hab; simp [dictIncrBy, dictGet?_cons]
      · simp [dictIncrBy, dictGet?_cons, hab, Ne.symm hab]
    · by_cases hab : a = b
      · subst hab
        have hak : a ≠ k := fun he => hbk he
        simp [dictIncrBy, hbk, dictGet?_cons, hak]
      · simp [dictIncrBy, hbk, dictGet?_cons, hab, Ne.symm hab, ih]

theorem dictKeys_dictIncrBy_mem (d : List (String × Nat)) (k : String)
    (n : Nat) (h : k ∈ dictKeys d) :
    dictKeys (dictIncrBy d k n) = dictKeys d := by
  induction d with
  | nil => exact absurd h (List.not_mem_nil k)
  | cons p rest ih =>
    obtain ⟨b, c⟩ := p
    by_cases hbk : b = k
    · subst hbk; simp [dictIncrBy, dictKeys]
    · have hcons : k ∈ b :: dictKeys rest := h
      have hk : k ∈ dictKeys rest := by
        rcases List.mem_cons.mp hcons with h' | h'
        · exact absurd h'.symm hbk
        · exact h'
      simp only [dictIncrBy, if_neg hbk, dictKeys, List.map_cons,
        List.cons.injEq, true_and]
      exact ih hk

theorem foldl_dictIncrBy_get_not_mem (xs : List String) (f : String → Nat)
    (d : List (String × Nat)) (a : String) (h : a ∉ xs) :
    dictGet? (xs.foldl (fun r x => dictIncrBy r x (f x)) d) a =
      dictGet? d a := by
  induction xs generalizing d with
  | nil => rfl
  | cons x rest ih =>
    have hax : a ≠ x := fun he => h (he ▸ List.mem_cons_self x rest)
    simp only [List.foldl_cons]
    rw [ih (dictIncrBy d x (f x)) (fun hm => h (List.mem_cons_of_mem _ hm)),
      dictGet?_dictIncrBy, if_neg hax]

theorem foldl_dictIncrBy_get_mem (xs : List String) (f : String → Nat)
    (d : List (String × Nat)) (a : String) (c : Nat) (hnd : xs.Nodup)
    (ha : a ∈ xs) (hc : dictGet? d a = some c) :
    dictGet? (xs.foldl (fun r x => dictIncrBy r x (f x)) d) a =
      some (c + f a) := by
  induction xs generalizing d with
  | nil => exact absurd ha (List.not_mem_nil a)
  | cons x rest ih =>
    simp only [List.foldl_cons]
    rcases List.mem_cons.mp ha with h' | h'
    · subst h'
      have hnotin : a ∉ rest := (List.nodup_cons.mp hnd).1
      rw [foldl_dictIncrBy_get_not_mem rest f _ a hnotin,
        dictGet?_dictIncrBy, if_pos rfl, hc]
      simp
    · have hax : a ≠ x := by
        intro he
        exact (List.nodup_cons.mp hnd).1 (he ▸ h')
      refine ih (dictIncrBy d x (f x)) ((List.nodup_cons.mp hnd).2) h' ?_
      rw [dictGet?_dictIncrBy, if_neg hax, hc]

theorem foldl_dictIncrBy_keys (xs : List String) (f : String → Nat)
    (d : List (String × Nat)) (h : ∀ x ∈ xs, x ∈ dictKeys d) :
    dictKeys (xs.foldl (fun r x => dictIncrBy r x (f x)) d) = dictKeys d := by
  induction xs generalizing d with
  | nil => rfl
  | cons x rest ih =>
    simp only [List.foldl_cons]
    have hx : x ∈ dictKeys d := h x (List.mem_cons_self _ _)
    have hkeys := dictKeys_dictIncrBy_mem d x (f x) hx
    rw [ih (dictIncrBy d x (f x))
      (fun y hy => hkeys ▸ h y (List.mem_cons_of_mem _ hy)), hkeys]

theorem recuento_get (alelos gs : List String) (d : List (String × Nat))
    (a : String) (c : Nat) (hnd : alelos.Nodup) (ha : a ∈ alelos)
    (hc : dictGet? d a = some c) :
    dictGet? (gs.foldl
      (fun acc g =>
        if g ≠ noDeterminado then
          alelos.foldl (fun r x => dictIncrBy r x (pyCount g x)) acc
        else acc) d) a =
      some (c + ((gs.filter (fun g => g ≠ noDeterminado)).map
        (fun g => pyCount g a)).sum) := by
  induction gs generalizing d c with
  | nil => simpa using hc
  | cons g rest ih =>
    simp only [List.foldl_cons]
    by_cases hg : g ≠ noDeterminado
    · rw [if_pos hg]
      have hstep := foldl_dictIncrBy_get_mem alelos (fun x => pyCount g x) d
        a c hnd ha hc
      rw [ih (alelos.foldl (fun r x => dictIncrBy r x (pyCount g x)) d)
        (c + pyCount g a) hstep]
      rw [List.filter_cons, if_pos (by simpa using hg)]
      simp only [List.map_cons, List.sum_cons, Option.some.injEq]
      omega
    · rw [if_neg hg]
      rw [ih d c hc]
      rw [List.filter_cons, if_neg (by simpa using hg)]

theorem recuento_keys (alelos gs : List String) (d : List (String × Nat))
    (h : ∀ x ∈ alelos, x ∈ dictKeys d) :
    dictKeys (gs.foldl
      (fun acc g =>
        if g ≠ noDeterminado then
          alelos.foldl (fun r x => dictIncrBy r x (pyCount g x)) acc
        else acc) d) = dictKeys d := by
  induction gs generalizing d with
  | nil => rfl
  | cons g rest ih =>
    simp only [List.foldl_cons]
    by_cases hg : g ≠ noDeterminado
    · rw [if_pos hg]
      have hkeys := foldl_dictIncrBy_keys alelos (fun x => pyCount g x) d h
      rw [ih (alelos.foldl (fun r x => dictIncrBy r x (pyCount g x)) d)
        (fun y hy => hkeys ▸ h y hy), hkeys]
    · rw [if_neg hg]
      exact ih d h

theorem dictGet?_map_self {β : Type} (l : List String) (v : String → β)
    (a : String) (ha : a ∈ l) :
    dictGet? (l.map (fun x => (x, v x))) a = some (v a) := by
  induction l with
  | nil => exact absurd ha (List.not_mem_nil a)
  | cons x rest ih =>
    by_cases hax : x = a
    · subst hax; simp [dictGet?_cons]
    · have h' : a ∈ rest := by
        rcases List.mem_cons.mp ha with h'' | h''
        · exact absurd h''.symm hax
        · exact h''
      simp [List.map_cons, dictGet?_cons, hax, ih h']

theorem dictKeys_map_self {β : Type} (l : List String) (v : String → β) :
    dictKeys (l.map (fun x => (x, v x))) = l := by
  rw [dictKeys, List.map_map]
  have hcomp : (Prod.fst ∘ fun x : String => (x, v x)) = id := by
    funext x
    rfl
  rw [hcomp, List.map_id]

theorem dict_eq_map_of_get {β : Type} (d : List (String × β))
    (ks : List String) (v : String → β) (hk : dictKeys d = ks)
    (hnd : ks.Nodup) (hv : ∀ a ∈ ks, dictGet? d a = some (v a)) :
    d = ks.map (fun a => (a, v a)) := by
  induction d generalizing ks with
  | nil =>
    simp only [dictKeys, List.map_nil] at hk
    rw [← hk]
    rfl
  | cons p rest ih =>
    obtain ⟨a, w⟩ := p
    cases ks with
    | nil => exact absurd hk (by simp [dictKeys])
    | cons k ks' =>
      obtain ⟨hak, hk2⟩ : a = k ∧ dictKeys rest = ks' := by
        simpa [dictKeys] using hk
      subst hak
      have hva := hv a (List.mem_cons_self _ _)
      rw [dictGet?_cons, if_pos rfl] at hva
      have hw : w = v a := by injection hva
      have hnd' := List.nodup_cons.mp hnd
      have hv' : ∀ b ∈ ks', dictGet? rest b = some (v b) := by
        intro b hb
        have hba : a ≠ b := fun he => hnd'.1 (he ▸ hb)
        have := hv b (List.mem_cons_of_mem _ hb)
        rwa [dictGet?_cons, if_neg hba] at this
      rw [List.map_cons, hw, ih ks' hk2 hnd'.2 hv']

theorem recuentoAlelos_eq (alelos gs : List String) (hnd : alelos.Nodup) :
    recuentoAlelos alelos gs = alelos.map (fun a => (a, cuentaAlelo gs a)) := by
  have hkeys0 : ∀ x ∈ alelos,
      x ∈ dictKeys (alelos.map (fun x => (x, (0 : Nat)))) := by
    intro x hx
    rw [dictKeys_map_self]
    exact hx
  refine dict_eq_map_of_get _ alelos _ ?_ hnd ?_
  · rw [recuentoAlelos, recuento_keys alelos gs _ hkeys0, dictKeys_map_self]
  · intro a ha
    rw [recuentoAlelos,
      recuento_get alelos gs _ a 0 hnd ha (dictGet?_map_self alelos _ a ha)]
    simp [cuentaAlelo]

/-- C8: in the multi-locus per-allele table, for every possible allele
token (`H<i>`/`R<i>` per locus plus the shared `"S"`), the reported
count equals the number of (substring) occurrences of that token across
the composed genotype strings of all samples, excluding those equal to
the undetermined sentinel, and the reported percentage equals that
count divided by the total occurrence count over all tokens, times 100
(guarded to 0 when the total is 0, which claim C10 covers). -/
theorem resumen_alelos_cuenta_y_porcentaje (n : Nat) (gs : List String)
    (hnd : (alelosPosibles n).Nodup) :
    resumenAlelos (alelosPosibles n) gs =
      (alelosPosibles n).map (fun a =>
        (a, cuentaAlelo gs a,
          if 0 < totalCuenta n gs then
            (cuentaAlelo gs a : ℚ) / (totalCuenta n gs : ℚ) * 100
          else 0)) := by
  have hrec := recuentoAlelos_eq (alelosPosibles n) gs hnd
  have htot : ((recuentoAlelos (alelosPosibles n) gs).map Prod.snd).sum =
      totalCuenta n gs := by
    rw [hrec, totalCuenta, List.map_map]
    have hcomp : (Prod.snd ∘ fun a => (a, cuentaAlelo gs a)) = cuentaAlelo gs := by
      funext a
      rfl
    rw [hcomp]
  simp only [resumenAlelos]
  rw [htot, hrec]
  refine List.map_congr_left ?_
  intro a ha
  rw [dictGet?_map_self (alelosPosibles n) (cuentaAlelo gs) a ha]
  rfl

/-- Witness for C8: two loci with genotypes `SR2`, `H1H2` and one
undetermined sample. -/
theorem resumen_alelos_cuenta_y_porcentaje_witness :
    (alelosPosibles 2).Nodup ∧
    resumenAlelos (alelosPosibles 2) ["SR2", "H1H2", "No se pudo determinar"] =
      (alelosPosibles 2).map (fun a =>
        (a, cuentaAlelo ["SR2", "H1H2", "No se pudo determinar"] a,
          if 0 < totalCuenta 2 ["SR2", "H1H2", "No se pudo determinar"] then
            (cuentaAlelo ["SR2", "H1H2", "No se pudo determinar"] a : ℚ) /
              (totalCuenta 2 ["SR2", "H1H2", "No se pudo determinar"] : ℚ) * 100
          else 0)) :=
  ⟨by decide,
    resumen_alelos_cuenta_y_porcentaje 2 ["SR2", "H1H2", "No se pudo determinar"]
      (by decide)⟩

end Genomos
